import Mathlib

/-! Shallow embedding of the `chaos` entropy-analysis library
(`src/chaos/chaos_encoder.py`, `src/chaos/algorithms.py`,
`src/chaos/order.py`, `src/chaos/models.py`).

Modelling conventions:

* The text encoders (`chaos_encoder.py`) are computable functions from
  `String` to `List ℚ`; the NumPy arrays they build hold exact machine
  integers or exact binary fractions on every input the development
  evaluates, so exact rationals are a faithful carrier.
* The entropy algorithms (`algorithms.py`) operate on `List ℝ`.  The
  IEEE-754 special values that drive the library's finiteness policy
  (`np.inf`, `np.nan`, `np.isfinite`) are modelled by the four-constructor
  type `RV` — a finite exact real, `+inf`, `-inf`, or `NaN` — with IEEE
  propagation rules for exactly the operations the code performs.
* Python exceptions are modelled with `Except`; the `ValueError`s raised
  by `order.py` are represented structurally by `OrderError`, one
  constructor per distinct message shape, carrying the data the message
  interpolates.
-/

namespace Chaos

/-- IEEE-754 double values as the algorithms observe them: a finite real
(exact real arithmetic stands in for finite doubles), `+inf`, `-inf`, or
`NaN`. -/
inductive RV where
  | fin : ℝ → RV
  | pinf : RV
  | ninf : RV
  | nan : RV

namespace RV

/-- IEEE addition (`inf + -inf = NaN`, `NaN` absorbs). -/
def add : RV → RV → RV
  | fin x, fin y => fin (x + y)
  | fin _, pinf => pinf
  | fin _, ninf => ninf
  | pinf, fin _ => pinf
  | pinf, pinf => pinf
  | pinf, ninf => nan
  | ninf, fin _ => ninf
  | ninf, ninf => ninf
  | ninf, pinf => nan
  | nan, _ => nan
  | _, nan => nan

/-- IEEE negation. -/
def neg : RV → RV
  | fin x => fin (-x)
  | pinf => ninf
  | ninf => pinf
  | nan => nan

/-- IEEE absolute value (`|NaN| = NaN`, `|±inf| = +inf`). -/
def abs : RV → RV
  | fin x => fin |x|
  | pinf => pinf
  | ninf => pinf
  | nan => nan

/-- IEEE/NumPy natural logarithm: `log 0 = -inf`, `log x = NaN` for
`x < 0`, `log (+inf) = +inf`, `log (-inf) = NaN`, `log NaN = NaN`. -/
noncomputable def log : RV → RV
  | fin x => if x = 0 then ninf else if 0 < x then fin (Real.log x) else nan
  | pinf => pinf
  | ninf => nan
  | nan => nan

/-- IEEE division of an `RV` by a real scalar (`x / 0 = ±inf` by the sign
of `x`, `0 / 0 = NaN`, `±inf / c` keeps or flips sign with `c`). -/
noncomputable def scaleDiv : RV → ℝ → RV
  | fin x, c =>
      if c = 0 then (if x = 0 then nan else if 0 < x then pinf else ninf)
      else fin (x / c)
  | pinf, c => if 0 ≤ c then pinf else ninf
  | ninf, c => if 0 ≤ c then ninf else pinf
  | nan, _ => nan

/-- IEEE multiplication of an `RV` by a real scalar (`0 * ±inf = NaN`). -/
noncomputable def scale (c : ℝ) : RV → RV
  | fin x => fin (c * x)
  | pinf => if 0 < c then pinf else if c < 0 then ninf else nan
  | ninf => if 0 < c then ninf else if c < 0 then pinf else nan
  | nan => nan

/-- `np.isfinite`. -/
def isFinite : RV → Bool
  | fin _ => true
  | _ => false

instance : Zero RV := ⟨fin 0⟩

instance : Add RV := ⟨add⟩

instance : Neg RV := ⟨neg⟩

/-- IEEE subtraction, `a - b = a + (-b)`. -/
instance : Sub RV := ⟨fun a b => add a (neg b)⟩

instance : AddCommMonoid RV where
  add_assoc a b c := by
    show add (add a b) c = add a (add b c)
    cases a <;> cases b <;> cases c <;> simp [add, add_assoc]
  zero_add a := by
    show add (fin 0) a = a
    cases a <;> simp [add]
  add_zero a := by
    show add a (fin 0) = a
    cases a <;> simp [add]
  add_comm a b := by
    show add a b = add b a
    cases a <;> cases b <;> simp [add, add_comm]
  nsmul := nsmulRec

end RV

/-! ## Data model (`models.py`) -/

/-- `models.py`, `class EncodingModel(Enum)`. -/
inductive EncodingModel where
  | ORDINAL
  | ONE_HOT
  | FREQUENCY
  | BINARY
deriving DecidableEq

/-- The `.value` string of each `EncodingModel` member. -/
def EncodingModel.value : EncodingModel → String
  | .ORDINAL => "ordinal"
  | .ONE_HOT => "one_hot"
  | .FREQUENCY => "frequency"
  | .BINARY => "binary"

/-- `models.py`, `class AlgorithmType(str, Enum)`. -/
inductive AlgorithmType where
  | SHANNON
  | APPROXIMATE
  | SAMPLE
  | PERMUTATION
  | MULTISCALE
deriving DecidableEq

/-- The `.value` string of each `AlgorithmType` member. -/
def AlgorithmType.value : AlgorithmType → String
  | .SHANNON => "shannon_entropy"
  | .APPROXIMATE => "approximate_entropy"
  | .SAMPLE => "sample_entropy"
  | .PERMUTATION => "permutation_entropy"
  | .MULTISCALE => "multiscale_entropy"

/-- `models.py`, `class EntropyResult(BaseModel)`.  The `entropy` field is
a Python float, i.e. an `RV` in this embedding. -/
structure EntropyResult where
  encoding : String
  algorithm : String
  entropy : RV

/-! ## Encoder (`chaos_encoder.py`, `class ChaosEncoder`)

All four encoders are computable and produce exact values, so they are
carried out in `List ℚ` (NumPy dtypes `int32` / `float64` / `int8`; every
value produced is an integer or an exact dyadic-free fraction, which the
orchestrator later consumes as a real sequence). -/

/-- Structural core of `natBits`: the first argument is fuel (any bound
`≥ n` yields the same digits; see `natBitsAux_eq`). -/
def natBitsAux : ℕ → ℕ → List ℕ
  | _, 0 => []
  | 0, _ + 1 => []
  | fuel + 1, n + 1 => natBitsAux fuel ((n + 1) / 2) ++ [(n + 1) % 2]

/-- Minimal-width binary digits of `n`, most significant bit first
(empty for `n = 0`); the recursive core of Python's `format(n, "b")`. -/
def natBits (n : ℕ) : List ℕ := natBitsAux n n

/-- `format(n, "08b")` as a bit list: the minimal-width binary digits of
`n` (with `"0"` for `n = 0`), left-padded with zeros to width at least 8.
Wider-than-8 outputs are kept whole, exactly as Python's `format` does. -/
def charBits (n : ℕ) : List ℕ :=
  let bs := if n = 0 then [0] else natBits n
  List.replicate (8 - bs.length) 0 ++ bs

/-- `ChaosEncoder._ordinal_encode`: each character's code point, in
order (`np.array([ord(c) for c in text], dtype=np.int32)`). -/
def ordinal_encode (text : String) : List ℚ :=
  text.data.map (fun c => (c.toNat : ℚ))

/-- Insertion of a character into a `≤`-sorted list of characters. -/
def insertChar (c : Char) : List Char → List Char
  | [] => [c]
  | d :: rest => if c.toNat ≤ d.toNat then c :: d :: rest else d :: insertChar c rest

/-- Insertion sort of a character list by code point; the embedding of
Python's `sorted(...)` on characters. -/
def sortChars : List Char → List Char
  | [] => []
  | c :: rest => insertChar c (sortChars rest)

/-- `sorted(list(set(text)))`: the distinct characters of `text` in
increasing code-point order. -/
def uniqueChars (text : String) : List Char :=
  sortChars text.data.dedup

/-- One row of the one-hot matrix: length `k`, a single `1` at `idx`. -/
def oneHotRow (idx k : ℕ) : List ℚ :=
  (List.range k).map (fun i => if i = idx then 1 else 0)

/-- `ChaosEncoder._one_hot_encode`: one length-`k` row per character
position (`1` at the rank of the character among the sorted distinct
characters), flattened row-major. -/
def one_hot_encode (text : String) : List ℚ :=
  let u := uniqueChars text
  text.data.flatMap (fun c => oneHotRow (u.indexOf c) u.length)

/-- `ChaosEncoder._frequency_encode`: per position, the character's
occurrence count over the whole text divided by the text length. -/
def frequency_encode (text : String) : List ℚ :=
  text.data.map (fun c => (text.data.count c : ℚ) / (text.data.length : ℚ))

/-- `ChaosEncoder._binary_encode`: `format(ord(char), "08b")` per
character, bits concatenated in character order. -/
def binary_encode (text : String) : List ℚ :=
  text.data.flatMap (fun c => (charBits c.toNat).map (fun (b : ℕ) => (b : ℚ)))

/-- `ChaosEncoder.encode`: dispatch on the encoding model.  (The Python
`ValueError` branch for an unknown model is unreachable here because
`EncodingModel` is the closed enum.) -/
def encode (text : String) (model : EncodingModel) : List ℚ :=
  match model with
  | .ORDINAL => ordinal_encode text
  | .ONE_HOT => one_hot_encode text
  | .FREQUENCY => frequency_encode text
  | .BINARY => binary_encode text

/-! ## Error taxonomy (`order.py` `ValueError`s, represented structurally) -/

/-- Reason of the `ValueError` re-raised by `Order._calculate_entropy`:
either the finiteness check failed, or the algorithm call itself raised. -/
inductive CalcReason where
  | notFinite
  | raised
deriving DecidableEq

/-- Failures inside the per-encoding loop body of `Order.get_stats`,
before wrapping with the offending encoding. -/
inductive ProcError where
  | encodingFailed
  | unsupportedAlgoType (alg : AlgorithmType)
  | calcError (alg : AlgorithmType) (reason : CalcReason)
deriving DecidableEq

/-- The `ValueError`s `Order.get_stats` can surface, one constructor per
distinct message shape, carrying the data the message interpolates. -/
inductive OrderError where
  | invalidInput
  | duplicateEncoding
  | duplicateAlgorithm
  | unsupportedAlgorithm
  | processing (enc : EncodingModel) (e : ProcError)
  | emptyResults
deriving DecidableEq

/-! ## Algorithm library (`algorithms.py`, `class Algorithms`) -/

noncomputable section

/-- Arithmetic mean of a sequence (`np.mean`; `0/0 = 0` junk for the
empty list, never consulted there). -/
def mean (xs : List ℝ) : ℝ := xs.sum / (xs.length : ℝ)

/-- NumPy `ndarray.std()` with its default `ddof = 0`: the population
standard deviation `sqrt(mean((x - mean(x))**2))`. -/
def popStd (xs : List ℝ) : ℝ :=
  Real.sqrt ((xs.map (fun x => (x - mean xs) ^ 2)).sum / (xs.length : ℝ))

/-- Sample standard deviation, divisor `N - 1` (`np.std(..., ddof=1)`):
the quantity the specification says the orchestrator uses.  Defined from
the spec's words for comparison against the code's `popStd`. -/
def sampleStd (xs : List ℝ) : ℝ :=
  Real.sqrt ((xs.map (fun x => (x - mean xs) ^ 2)).sum / ((xs.length : ℝ) - 1))

/-- The length-`dim` contiguous window of `ts` at start `i`
(`time_series[i : i + dim]`). -/
def win (ts : List ℝ) (dim i : ℕ) : List ℝ := (ts.drop i).take dim

/-- `max(abs(a - b))` for equal-length windows: the Chebyshev distance.
(The fold base `0` is only reached for empty windows, which the code
never compares without raising; see `approximate_entropy`.) -/
def chebDist (a b : List ℝ) : ℝ :=
  (List.zipWith (fun x y => |x - y|) a b).foldr max 0

/-- The inner counting loop of `_phi` in `Algorithms.approximate_entropy`:
`count[i]` accumulates `1` for every `j` with
`max(abs(template - time_series[j:j+m_val])) < r` (including `j = i`). -/
def apCount (ts : List ℝ) (dim : ℕ) (r : ℝ) (i : ℕ) : ℕ :=
  ((List.range (ts.length + 1 - dim)).map
    (fun j => if chebDist (win ts dim i) (win ts dim j) < r then 1 else 0)).sum

/-- `_phi(m_val)` in `Algorithms.approximate_entropy`:
`np.sum(np.log(count / (N - m_val + 1))) / (N - m_val + 1)` with IEEE
semantics (`log 0 = -inf`; a window count of zero gives `0 / 0 = NaN`,
exactly as NumPy's warning-but-no-exception arithmetic does). -/
def phi (ts : List ℝ) (dim : ℕ) (r : ℝ) : RV :=
  let W := ts.length + 1 - dim
  RV.scaleDiv
    (((List.range W).map
      (fun i => RV.log (RV.fin ((apCount ts dim r i : ℝ) / (W : ℝ))))).sum)
    (W : ℝ)

/-- `Algorithms.approximate_entropy`.  `Except.error` models the Python
`ValueError`s the function can raise: `m = 0` makes the builtin `max`
fail on an empty array inside `_phi`, and `m > N` makes
`np.zeros(N - (m+1) + 1)` fail on a negative size.  Otherwise the result
is `abs(_phi(m) - _phi(m + 1))`. -/
def approximate_entropy (ts : List ℝ) (m : ℕ) (r : ℝ) : Except Unit RV :=
  if m = 0 ∨ ts.length < m then .error ()
  else .ok (RV.abs (phi ts m r - phi ts (m + 1) r))

/-- One step of the counting loops of `Algorithms.sample_entropy` at
template index `i` and window length `dim`:
`np.sum((distances < r) & (np.arange(len(distances)) != i))`, where the
distances run over all `N - dim + 1` windows of length `dim`. -/
def sampCount (ts : List ℝ) (dim : ℕ) (r : ℝ) (i : ℕ) : ℕ :=
  ((List.range (ts.length + 1 - dim)).map
    (fun j => if chebDist (win ts dim i) (win ts dim j) < r ∧ j ≠ i then 1 else 0)).sum

/-- `Algorithms.sample_entropy`.  `B` accumulates the matches for
`i in range(N - m)` against all `N - m + 1` length-`m` windows, `A` for
`i in range(N - m - 1)` against all `N - m` length-`(m+1)` windows; the
result is `-log(A / B)` when both counts are positive and `np.inf`
otherwise.  `Except.error` models the `ValueError` NumPy raises for
`m = 0` on a non-empty series (`np.max(..., axis=1)` over a zero-width
array). -/
def sample_entropy (ts : List ℝ) (m : ℕ) (r : ℝ) : Except Unit RV :=
  if m = 0 ∧ 1 ≤ ts.length then .error ()
  else
    let N := ts.length
    let B := ((List.range (N - m)).map (sampCount ts m r)).sum
    let A := ((List.range (N - m - 1)).map (sampCount ts (m + 1) r)).sum
    if 0 < B ∧ 0 < A then .ok (RV.fin (-Real.log ((A : ℝ) / (B : ℝ))))
    else .ok RV.pinf

/-- Insert index `i` into an index list sorted by the values of `xs`
(an existing index with a value `≤` the new one stays in front). -/
def insertIdx (xs : List ℝ) (i : ℕ) : List ℕ → List ℕ
  | [] => [i]
  | j :: rest =>
      if xs.getD j 0 ≤ xs.getD i 0 then j :: insertIdx xs i rest
      else i :: j :: rest

/-- `np.argsort(pattern)`: the indices that order the values.  NumPy's
default quicksort leaves tie order unspecified; this embedding fixes the
stable (index-increasing) resolution, on which no modelled behaviour
depends. -/
def argsort (xs : List ℝ) : List ℕ :=
  (List.range xs.length).foldl (fun acc i => insertIdx xs i acc) []

/-- `Algorithms.permutation_entropy`: tally the `argsort` pattern of
each stride-`delay` window of `order` samples, then take the base-2
Shannon entropy of the pattern frequencies.  (All pattern frequencies
are positive, so the value is always finite; the empty-window case
returns `-0.0` exactly as Python's `sum` over an empty generator.) -/
def permutation_entropy (ts : List ℝ) (order delay : ℕ) : RV :=
  let keys := (List.range (ts.length - delay * (order - 1))).map
    (fun i => argsort ((List.range order).map (fun t => ts.getD (i + t * delay) 0)))
  let probs := keys.dedup.map (fun k => (keys.count k : ℝ) / (keys.length : ℝ))
  RV.fin (-(probs.map (fun p => p * Real.logb 2 p)).sum)

/-- `Algorithms.shannon_entropy`: empirical probability of each distinct
value, then `-Σ p * log_base(p)`, with the dedicated `log2` branch of the
source.  (`np.unique` returns the distinct values sorted; the sum is
order-independent, so first-occurrence order `dedup` yields the same
value.) -/
def shannon_entropy (data : List ℝ) (base : ℝ) : ℝ :=
  let probs := data.dedup.map (fun v => (data.count v : ℝ) / (data.length : ℝ))
  if base = 2 then -((probs.map (fun p => p * Real.logb 2 p)).sum)
  else -((probs.map (fun p => p * (Real.log p / Real.log base))).sum)

/-! ## Orchestrator (`order.py`, `class Order`) -/

/-- The tolerance `Order._get_algorithm_function` supplies to the
Approximate and Sample algorithms: `0.2 * float(x.std())`, i.e. `0.2`
times the NumPy population standard deviation. -/
def orderTolerance (x : List ℝ) : ℝ := 0.2 * popStd x

/-- `Order._get_algorithm_function`: the map from algorithm type to the
parameterised algorithm call (`m=2`, `r=0.2*x.std()` for Approximate and
Sample; library defaults `base=2` for Shannon and `order=3, delay=1` for
Permutation).  `MULTISCALE` is absent from the map, so `.get` yields
`none`. -/
def get_algorithm_function : AlgorithmType → Option (List ℝ → Except Unit RV)
  | .SHANNON => some (fun x => .ok (RV.fin (shannon_entropy x 2)))
  | .APPROXIMATE => some (fun x => approximate_entropy x 2 (orderTolerance x))
  | .SAMPLE => some (fun x => sample_entropy x 2 (orderTolerance x))
  | .PERMUTATION => some (fun x => .ok (permutation_entropy x 3 1))
  | .MULTISCALE => none

/-- `Order._calculate_entropy`: look up the algorithm, run it, reject a
non-finite value, and build the result record. -/
def calculate_entropy (data : List ℝ) (encoding : String) (alg : AlgorithmType) :
    Except ProcError EntropyResult :=
  match get_algorithm_function alg with
  | none => .error (.unsupportedAlgoType alg)
  | some f =>
    match f data with
    | .error _ => .error (.calcError alg .raised)
    | .ok v =>
      if v.isFinite then .ok ⟨encoding, alg.value, v⟩
      else .error (.calcError alg .notFinite)

/-- `Order._valid_algorithms` (a 4-element Python set, represented as
the list in source order).  `list(self._valid_algorithms)` — the default
algorithm selection — iterates the same set; its members are `str`-mixin
enum values, whose hashes are randomized string hashes, so Python's set
iteration order varies per process and this fixed list is only one
representative ordering.  Any statement about the default run that could
depend on the ordering is therefore proved for every permutation of this
list, not for this ordering alone. -/
def validAlgorithms : List AlgorithmType :=
  [.SHANNON, .APPROXIMATE, .SAMPLE, .PERMUTATION]

/-- The encoded sequence as the orchestrator's algorithms see it: the
exact rational encoder output read as a real NumPy array. -/
def encodeR (text : String) (model : EncodingModel) : List ℝ :=
  (encode text model).map (fun (q : ℚ) => (q : ℝ))

/-- The bare algorithm value computed for one `(encoding, algorithm)`
pair of the cross product — `algo_func(data)` in
`Order._calculate_entropy`, before the finiteness check (`.error` for a
raising call or, junk, for the mapless `MULTISCALE`). -/
def rawCompute (text : String) (enc : EncodingModel) (alg : AlgorithmType) :
    Except Unit RV :=
  match get_algorithm_function alg with
  | some f => f (encodeR text enc)
  | none => .error ()

/-- The inner `for algorithm in algorithms` loop of `Order.get_stats`:
one result per algorithm in request order; the first exception aborts. -/
def runAlgs (data : List ℝ) (encName : String) :
    List AlgorithmType → Except ProcError (List EntropyResult)
  | [] => .ok []
  | a :: rest =>
    match calculate_entropy data encName a with
    | .error e => .error e
    | .ok r =>
      match runAlgs data encName rest with
      | .error e => .error e
      | .ok rs => .ok (r :: rs)

/-- The outer `for encoding_model in encodings` loop of `Order.get_stats`:
encode the text once, reject an empty encoding, run every algorithm; any
exception is wrapped naming the offending encoding and aborts the call. -/
def runEncodings (text : String) (algs : List AlgorithmType) :
    List EncodingModel → Except OrderError (List EntropyResult)
  | [] => .ok []
  | e :: rest =>
    let encoded := encodeR text e
    if encoded.length = 0 then .error (.processing e .encodingFailed)
    else
      match runAlgs encoded e.value algs with
      | .error pe => .error (.processing e pe)
      | .ok rs =>
        match runEncodings text algs rest with
        | .error oe => .error oe
        | .ok rest' => .ok (rs ++ rest')

/-- The result-collection tail of `Order.get_stats`: run the loops, then
fail with the `"No entropy results were calculated"` error if nothing was
produced. -/
def get_statsRun (data : String) (encs : List EncodingModel)
    (algs : List AlgorithmType) : Except OrderError (List EntropyResult) :=
  match runEncodings data algs encs with
  | .error e => .error e
  | .ok res => if res.isEmpty then .error .emptyResults else .ok res

/-- The algorithm-validation block of `Order.get_stats` (duplicates
first, then membership in the validated set), after text and encodings
have been validated. -/
def get_statsAlgs (data : String) (encs : List EncodingModel)
    (algorithms : Option (List AlgorithmType)) :
    Except OrderError (List EntropyResult) :=
  match algorithms with
  | some l =>
    if ¬ l.Nodup then .error .duplicateAlgorithm
    else if ∃ a ∈ l, a ∉ validAlgorithms then .error .unsupportedAlgorithm
    else get_statsRun data encs l
  | none => get_statsRun data encs validAlgorithms

/-- `Order.get_stats` (the `json_response=False` branch; the JSON branch
returns the same records field-for-field).  Validation order follows the
source: non-empty text, then encodings (default `[FREQUENCY]`, duplicate
check), then algorithms (default `list(self._valid_algorithms)`,
duplicate check, membership check), then the computation loops.  The
`isinstance` checks are enforced by typing in this embedding. -/
def get_stats (data : String) (encodings : Option (List EncodingModel))
    (algorithms : Option (List AlgorithmType)) :
    Except OrderError (List EntropyResult) :=
  if data = "" then .error .invalidInput
  else
    match encodings with
    | some es =>
      if ¬ es.Nodup then .error .duplicateEncoding
      else get_statsAlgs data es algorithms
    | none => get_statsAlgs data [.FREQUENCY] algorithms

/-! ## Specification-side definitions

These follow the frozen specification's words (not the source), for the
refinement claims that compare the two. -/

/-- The window-match count as the specification words it: how many of the
`N - dim + 1` windows (the window itself included) lie within Chebyshev
distance `< r` of window `i`. -/
def apCountSpec (ts : List ℝ) (dim : ℕ) (r : ℝ) (i : ℕ) : ℕ :=
  ((Finset.range (ts.length + 1 - dim)).filter
    (fun j => chebDist (win ts dim i) (win ts dim j) < r)).card

/-- `φ(dim)` as the specification states it:
`(1 / (N - dim + 1)) · Σ_i log(count_i / (N - dim + 1))`. -/
def phiSpec (ts : List ℝ) (dim : ℕ) (r : ℝ) : RV :=
  let W := ts.length + 1 - dim
  RV.scale (1 / (W : ℝ))
    (∑ i ∈ Finset.range W, RV.log (RV.fin ((apCountSpec ts dim r i : ℝ) / (W : ℝ))))

/-- The pair count as the specification words it for Sample Entropy:
the number of ordered pairs `(i, j)`, `i ≠ j`, of length-`dim` windows at
Chebyshev distance `< r`, with BOTH indices ranging over all
`N - dim + 1` windows. -/
def pairCountSpec (ts : List ℝ) (dim : ℕ) (r : ℝ) : ℕ :=
  ((Finset.range (ts.length + 1 - dim) ×ˢ Finset.range (ts.length + 1 - dim)).filter
    (fun p => p.1 ≠ p.2 ∧ chebDist (win ts dim p.1) (win ts dim p.2) < r)).card

/-- Sample entropy exactly as the frozen specification claims it:
`-ln(A/B)` over the full pair counts, `+inf` when `A = 0` or `B = 0`. -/
def sampleEntropySpec (ts : List ℝ) (m : ℕ) (r : ℝ) : RV :=
  let B := pairCountSpec ts m r
  let A := pairCountSpec ts (m + 1) r
  if A = 0 ∨ B = 0 then RV.pinf
  else RV.fin (-Real.log ((A : ℝ) / (B : ℝ)))

/-- The pair count `sample_entropy` actually accumulates: the first index
ranges only over the first `iMax` templates, the second over all `jMax`
windows of length `dim`. -/
def pairCountCode (ts : List ℝ) (dim : ℕ) (r : ℝ) (iMax jMax : ℕ) : ℕ :=
  ((Finset.range iMax ×ˢ Finset.range jMax).filter
    (fun p => chebDist (win ts dim p.1) (win ts dim p.2) < r ∧ p.2 ≠ p.1)).card

/-- Population standard deviation written positionally with divisor `N`,
as the amended tolerance claim states it. -/
def popStdSpec (xs : List ℝ) : ℝ :=
  Real.sqrt
    ((∑ i ∈ Finset.range xs.length, (xs.getD i 0 - mean xs) ^ 2) / (xs.length : ℝ))

end

/-! ## Bridge lemmas (lists ↔ finsets, `RV` arithmetic) -/

theorem list_range_map_sum {M : Type} [AddCommMonoid M] (f : ℕ → M) (n : ℕ) :
    ((List.range n).map f).sum = ∑ i ∈ Finset.range n, f i := by
  induction n with
  | zero => simp
  | succ n ih =>
      rw [List.range_succ, List.map_append, List.sum_append, ih,
        Finset.sum_range_succ]
      simp

theorem list_map_sum_getD (xs : List ℝ) (f : ℝ → ℝ) :
    (xs.map f).sum = ∑ i ∈ Finset.range xs.length, f (xs.getD i 0) := by
  induction xs with
  | nil => simp
  | cons x rest ih =>
      rw [List.map_cons, List.sum_cons, ih]
      rw [List.length_cons, Finset.sum_range_succ']
      simp [add_comm]

theorem list_if_sum_eq_card (n : ℕ) (P : ℕ → Prop) [DecidablePred P] :
    ((List.range n).map (fun j => if P j then 1 else 0)).sum =
      ((Finset.range n).filter P).card := by
  rw [list_range_map_sum, Finset.card_filter]

theorem card_filter_product (n k : ℕ) (P : ℕ → ℕ → Prop)
    [∀ i j, Decidable (P i j)] :
    ((Finset.range n ×ˢ Finset.range k).filter (fun p => P p.1 p.2)).card =
      ∑ i ∈ Finset.range n, ((Finset.range k).filter (P i)).card := by
  rw [Finset.card_filter, Finset.sum_product]
  exact Finset.sum_congr rfl (fun i _ => (Finset.card_filter _ _).symm)

theorem RV.scaleDiv_eq_scale_inv (a : RV) (c : ℝ) (h : 0 < c) :
    RV.scaleDiv a c = RV.scale (1 / c) a := by
  cases a <;> simp [RV.scaleDiv, RV.scale, ne_of_gt h, h, not_lt.mpr (le_of_lt h),
    one_div, inv_pos.mpr h, div_eq_inv_mul]

/-! ## Facts about minimal binary representations -/

theorem natBitsAux_eq (n : ℕ) : ∀ f : ℕ, n ≤ f → natBitsAux f n = natBits n := by
  induction n using Nat.strong_induction_on with
  | _ n ih =>
    intro f hf
    match n, f with
    | 0, f => cases f <;> rfl
    | m + 1, g + 1 =>
      have hdiv₁ : (m + 1) / 2 ≤ m := by omega
      have hdiv₂ : (m + 1) / 2 < m + 1 := by omega
      show natBitsAux g ((m + 1) / 2) ++ [(m + 1) % 2] = natBits (m + 1)
      rw [ih ((m + 1) / 2) hdiv₂ g (by omega)]
      show _ = natBitsAux (m + 1) (m + 1)
      rw [show natBitsAux (m + 1) (m + 1)
          = natBitsAux m ((m + 1) / 2) ++ [(m + 1) % 2] from rfl,
        ih ((m + 1) / 2) hdiv₂ m hdiv₁]

theorem natBits_unfold (n : ℕ) (h : 1 ≤ n) :
    natBits n = natBits (n / 2) ++ [n % 2] := by
  match n, h with
  | m + 1, _ =>
    show natBitsAux m ((m + 1) / 2) ++ [(m + 1) % 2] = _
    rw [natBitsAux_eq ((m + 1) / 2) m (by omega)]

theorem natBits_ne_nil (n : ℕ) (h : 1 ≤ n) : natBits n ≠ [] := by
  rw [natBits_unfold n h]; simp

theorem natBits_length (n : ℕ) (h : 1 ≤ n) :
    (natBits n).length = Nat.log 2 n + 1 := by
  induction n using Nat.strong_induction_on with
  | _ n ih =>
    rcases Nat.lt_or_ge n 2 with h2 | h2
    · interval_cases n
      rw [natBits_unfold 1 le_rfl]
      simp [natBits, natBitsAux, Nat.log]
    · have hdiv : n / 2 < n := Nat.div_lt_self (by omega) one_lt_two
      have hpos : 1 ≤ n / 2 := (Nat.one_le_div_iff (by norm_num)).mpr h2
      rw [natBits_unfold n h, List.length_append, ih (n / 2) hdiv hpos]
      have hlog : Nat.log 2 (n / 2) = Nat.log 2 n - 1 := Nat.log_div_base 2 n
      have hlogpos : 0 < Nat.log 2 n := Nat.log_pos one_lt_two h2
      simp only [List.length_cons, List.length_nil]
      omega

theorem natBits_head (n : ℕ) (h : 1 ≤ n) : (natBits n).head? = some 1 := by
  induction n using Nat.strong_induction_on with
  | _ n ih =>
    rcases Nat.lt_or_ge n 2 with h2 | h2
    · interval_cases n
      rw [natBits_unfold 1 le_rfl]; simp [natBits, natBitsAux]
    · have hdiv : n / 2 < n := Nat.div_lt_self (by omega) one_lt_two
      have hpos : 1 ≤ n / 2 := (Nat.one_le_div_iff (by norm_num)).mpr h2
      rw [natBits_unfold n h]
      rcases List.exists_cons_of_ne_nil (natBits_ne_nil (n / 2) hpos) with ⟨b, t, hbt⟩
      have := ih (n / 2) hdiv hpos
      rw [hbt] at this ⊢
      simpa using this

theorem natBits_bits (n : ℕ) : ∀ b ∈ natBits n, b = 0 ∨ b = 1 := by
  induction n using Nat.strong_induction_on with
  | _ n ih =>
    rcases Nat.eq_zero_or_pos n with h0 | hpos
    · subst h0; simp [natBits, natBitsAux]
    · rw [natBits_unfold n hpos]
      intro b hb
      rcases List.mem_append.1 hb with hb | hb
      · exact ih (n / 2) (Nat.div_lt_self hpos one_lt_two) b hb
      · simp only [List.mem_singleton] at hb
        subst hb
        omega

theorem natBits_foldl (n : ℕ) :
    (natBits n).foldl (fun a b => 2 * a + b) 0 = n := by
  induction n using Nat.strong_induction_on with
  | _ n ih =>
    rcases Nat.eq_zero_or_pos n with h0 | hpos
    · subst h0; simp [natBits, natBitsAux]
    · rw [natBits_unfold n hpos, List.foldl_append,
        ih (n / 2) (Nat.div_lt_self hpos one_lt_two)]
      simp only [List.foldl_cons, List.foldl_nil]
      omega

theorem charBits_ascii : ∀ n : ℕ, n < 128 →
    (charBits n).length = 8 ∧
    (∀ b ∈ charBits n, b = 0 ∨ b = 1) ∧
    charBits n = (List.range 8).map (fun i => n / 2 ^ (7 - i) % 2) := by
  decide

/-- The one-character binary block is the `charBits` of its code point. -/
theorem binary_encode_singleton (c : Char) :
    binary_encode (String.mk [c]) = (charBits c.toNat).map (fun (b : ℕ) => (b : ℚ)) := by
  simp [binary_encode]

/-- C9: for every single character with code point below 128 (ASCII), the
Binary encoding produces exactly 8 elements, each 0 or 1, equal to the
8-bit zero-padded binary digits of the character's code point in
most-significant-bit-first order. -/
theorem c9_binary_ascii_char (c : Char) (h : c.toNat < 128) :
    binary_encode (String.mk [c]) = (charBits c.toNat).map (fun (b : ℕ) => (b : ℚ)) ∧
    (binary_encode (String.mk [c])).length = 8 ∧
    (∀ x ∈ binary_encode (String.mk [c]), x = 0 ∨ x = 1) ∧
    charBits c.toNat = (List.range 8).map (fun i => c.toNat / 2 ^ (7 - i) % 2) := by
  obtain ⟨hlen, hbits, hdig⟩ := charBits_ascii c.toNat h
  refine ⟨binary_encode_singleton c, ?_, ?_, hdig⟩
  · rw [binary_encode_singleton c, List.length_map, hlen]
  · intro x hx
    rw [binary_encode_singleton c] at hx
    rcases List.mem_map.1 hx with ⟨b, hb, rfl⟩
    rcases hbits b hb with h0 | h1
    · subst h0; left; norm_num
    · subst h1; right; norm_num

/-- C9 witness: the character `A` (code point 65). -/
theorem c9_binary_ascii_char_witness :
    'A'.toNat < 128 ∧
    (binary_encode (String.mk ['A'])).length = 8 ∧
    charBits 'A'.toNat = (List.range 8).map (fun i => 'A'.toNat / 2 ^ (7 - i) % 2) := by
  refine ⟨by decide, ?_, ?_⟩
  · exact (c9_binary_ascii_char 'A' (by decide)).2.1
  · exact (c9_binary_ascii_char 'A' (by decide)).2.2.2

/-- C10: for a character with code point ≥ 256, the Binary encoding
emits the minimum-width binary representation of that code point —
strictly more than 8 elements, no padding (the block IS the minimal bit
string: leading bit 1, length equal to the bit length, digits
reconstructing the code point) — so the per-character block width varies
with the code point's bit length instead of being a fixed 8. -/
theorem c10_binary_wide_char (c : Char) (h : 256 ≤ c.toNat) :
    binary_encode (String.mk [c]) = (natBits c.toNat).map (fun (b : ℕ) => (b : ℚ)) ∧
    (binary_encode (String.mk [c])).length = Nat.log 2 c.toNat + 1 ∧
    8 < (binary_encode (String.mk [c])).length ∧
    (natBits c.toNat).head? = some 1 ∧
    (natBits c.toNat).foldl (fun a b => 2 * a + b) 0 = c.toNat := by
  have hpos : 1 ≤ c.toNat := le_trans (by norm_num) h
  have hlog : 8 ≤ Nat.log 2 c.toNat := by
    have := (Nat.pow_le_iff_le_log one_lt_two (by omega)).1
      (show 2 ^ 8 ≤ c.toNat by norm_num; omega)
    exact this
  have hlen : (natBits c.toNat).length = Nat.log 2 c.toNat + 1 :=
    natBits_length c.toNat hpos
  have hchar : charBits c.toNat = natBits c.toNat := by
    unfold charBits
    have hne : ¬ c.toNat = 0 := by omega
    simp only [hne, if_false]
    have : 8 - (natBits c.toNat).length = 0 := by omega
    rw [this]
    simp
  have henc : binary_encode (String.mk [c]) = (natBits c.toNat).map (fun (b : ℕ) => (b : ℚ)) := by
    rw [binary_encode_singleton c, hchar]
  refine ⟨henc, ?_, ?_, natBits_head c.toNat hpos, natBits_foldl c.toNat⟩
  · rw [henc, List.length_map, hlen]
  · rw [henc, List.length_map, hlen]; omega

/-- C10 witness: code point 256 (`Ā`), block of 9 bits. -/
theorem c10_binary_wide_char_witness :
    256 ≤ 'Ā'.toNat ∧
    (binary_encode (String.mk ['Ā'])).length = Nat.log 2 'Ā'.toNat + 1 ∧
    8 < (binary_encode (String.mk ['Ā'])).length := by
  refine ⟨by decide, ?_, ?_⟩
  · exact (c10_binary_wide_char 'Ā' (by decide)).2.1
  · exact (c10_binary_wide_char 'Ā' (by decide)).2.2.1

/-! ## Facts about the one-hot encoder -/

theorem insertChar_length (c : Char) (l : List Char) :
    (insertChar c l).length = l.length + 1 := by
  induction l with
  | nil => rfl
  | cons d rest ih =>
      by_cases hcd : c.toNat ≤ d.toNat <;> simp [insertChar, hcd, ih]

theorem mem_insertChar (a c : Char) (l : List Char) :
    a ∈ insertChar c l ↔ a = c ∨ a ∈ l := by
  induction l with
  | nil => simp [insertChar]
  | cons d rest ih =>
      by_cases hcd : c.toNat ≤ d.toNat
      · simp [insertChar, hcd]
      · simp [insertChar, hcd, ih]
        tauto

theorem sortChars_length (l : List Char) : (sortChars l).length = l.length := by
  induction l with
  | nil => rfl
  | cons c rest ih => simp [sortChars, insertChar_length, ih]

theorem mem_sortChars (a : Char) (l : List Char) : a ∈ sortChars l ↔ a ∈ l := by
  induction l with
  | nil => simp [sortChars]
  | cons c rest ih => simp [sortChars, mem_insertChar, ih]

theorem mem_uniqueChars (a : Char) (text : String) :
    a ∈ uniqueChars text ↔ a ∈ text.data := by
  rw [uniqueChars, mem_sortChars, List.mem_dedup]

theorem oneHotRow_length (idx k : ℕ) : (oneHotRow idx k).length = k := by
  simp [oneHotRow]

theorem oneHotRow_mem (idx k : ℕ) : ∀ x ∈ oneHotRow idx k, x = 0 ∨ x = 1 := by
  intro x hx
  rcases List.mem_map.1 hx with ⟨i, _, rfl⟩
  by_cases hi : i = idx <;> simp [hi]

theorem oneHotRow_getD (idx k i : ℕ) (h : i < k) :
    (oneHotRow idx k).getD i 0 = if i = idx then 1 else 0 := by
  have hl : i < (oneHotRow idx k).length := by rwa [oneHotRow_length]
  rw [List.getD_eq_getElem _ _ hl]
  simp [oneHotRow]

theorem oneHotRow_count_zero (idx k : ℕ) (h : k ≤ idx) :
    (oneHotRow idx k).count 1 = 0 := by
  induction k with
  | zero => rfl
  | succ k ih =>
      rw [oneHotRow, List.range_succ, List.map_append, List.count_append]
      rw [show (List.range k).map (fun i => if i = idx then (1 : ℚ) else 0)
          = oneHotRow idx k from rfl, ih (by omega)]
      have hk : ¬ k = idx := by omega
      simp [hk]

theorem oneHotRow_count_one (idx k : ℕ) (h : idx < k) :
    (oneHotRow idx k).count 1 = 1 := by
  induction k with
  | zero => omega
  | succ k ih =>
      rw [oneHotRow, List.range_succ, List.map_append, List.count_append]
      rw [show (List.range k).map (fun i => if i = idx then (1 : ℚ) else 0)
          = oneHotRow idx k from rfl]
      rcases Nat.lt_or_ge idx k with hik | hik
      · have hk : ¬ k = idx := by omega
        simp [ih hik, hk]
      · have hk : k = idx := by omega
        rw [oneHotRow_count_zero idx k hik]
        simp [hk]

theorem flatMap_length_const {α β : Type} (l : List α) (f : α → List β) (k : ℕ)
    (hk : ∀ x ∈ l, (f x).length = k) : (l.flatMap f).length = l.length * k := by
  induction l with
  | nil => simp
  | cons x rest ih =>
      rw [List.flatMap_cons, List.length_append, hk x (by simp),
        ih (fun y hy => hk y (by simp [hy])), List.length_cons]
      ring

theorem flatMap_block {α β : Type} (l : List α) (f : α → List β) (k : ℕ)
    (hk : ∀ x ∈ l, (f x).length = k) :
    ∀ j, ∀ hj : j < l.length,
      ((l.flatMap f).drop (j * k)).take k = f (l.get ⟨j, hj⟩) := by
  induction l with
  | nil => intro j hj; simp at hj
  | cons x rest ih =>
      intro j hj
      cases j with
      | zero =>
          simp only [List.flatMap_cons, Nat.zero_mul, List.drop_zero]
          rw [List.take_left' (hk x (by simp))]
          rfl
      | succ j =>
          simp only [List.flatMap_cons]
          rw [show (j + 1) * k = (f x).length + j * k by rw [hk x (by simp)]; ring,
            List.drop_append]
          exact ih (fun y hy => hk y (by simp [hy])) j (by simpa using hj)

/-- C8: for every non-empty text of length `L` with `k` distinct
characters, the OneHot encoding has length exactly `L × k`, every element
is 0 or 1, and each consecutive length-`k` block contains exactly one
`1`, located at the rank of that position's character in the sorted set
of distinct characters. -/
theorem c8_one_hot_blocks (text : String) (h : text ≠ "") :
    (one_hot_encode text).length = text.length * (uniqueChars text).length ∧
    (uniqueChars text).length = text.data.dedup.length ∧
    (∀ x ∈ one_hot_encode text, x = 0 ∨ x = 1) ∧
    (∀ j, ∀ hj : j < text.data.length,
      ((one_hot_encode text).drop (j * (uniqueChars text).length)).take
          (uniqueChars text).length
        = oneHotRow ((uniqueChars text).indexOf (text.data.get ⟨j, hj⟩))
            (uniqueChars text).length ∧
      (((one_hot_encode text).drop (j * (uniqueChars text).length)).take
          (uniqueChars text).length).count 1 = 1) := by
  have hrow : ∀ c ∈ text.data,
      (oneHotRow ((uniqueChars text).indexOf c) (uniqueChars text).length).length
        = (uniqueChars text).length := fun _ _ => oneHotRow_length _ _
  have henc : one_hot_encode text
      = text.data.flatMap
          (fun c => oneHotRow ((uniqueChars text).indexOf c) (uniqueChars text).length) :=
    rfl
  refine ⟨?_, sortChars_length _, ?_, ?_⟩
  · rw [henc, flatMap_length_const _ _ _ hrow]
    rfl
  · intro x hx
    rw [henc] at hx
    rcases List.mem_flatMap.1 hx with ⟨c, _, hc⟩
    exact oneHotRow_mem _ _ x hc
  · intro j hj
    have hblock := flatMap_block text.data
      (fun c => oneHotRow ((uniqueChars text).indexOf c) (uniqueChars text).length)
      (uniqueChars text).length hrow j hj
    have hcmem : text.data.get ⟨j, hj⟩ ∈ text.data := List.get_mem text.data j hj
    have hidx : (uniqueChars text).indexOf (text.data.get ⟨j, hj⟩)
        < (uniqueChars text).length :=
      List.indexOf_lt_length.2 ((mem_uniqueChars _ text).2 hcmem)
    rw [henc]
    exact ⟨hblock, by rw [hblock]; exact oneHotRow_count_one _ _ hidx⟩

/-- C8 witness: the text `aba` (`L = 3`, `k = 2`), with the encoding
evaluated concretely. -/
theorem c8_one_hot_blocks_witness :
    "aba" ≠ "" ∧
    (one_hot_encode "aba").length = "aba".length * (uniqueChars "aba").length ∧
    one_hot_encode "aba" = [1, 0, 0, 1, 1, 0] := by
  exact ⟨by decide, (c8_one_hot_blocks "aba" (by decide)).1, by decide⟩

/-- C6: every validation failure of `get_stats` is raised before any
encoding or entropy computation: empty text fails with the
invalid-input error (the non-string case is excluded by typing); a
provided algorithm list with duplicates fails with the
duplicate-selection error; a provided algorithm list containing any
element outside the validated set — in particular `MULTISCALE` — fails
with the unsupported-algorithm error, so `MULTISCALE` is never usable
through this entry point.  Each error is determined by the inputs alone,
for every text and selection, independently of any computed value. -/
theorem c6_validation (data : String) (encs : Option (List EncodingModel))
    (algs : Option (List AlgorithmType)) :
    (data = "" → get_stats data encs algs = .error .invalidInput) ∧
    (data ≠ "" → (∀ es, encs = some es → es.Nodup) →
      ∀ l, algs = some l → ¬ l.Nodup →
        get_stats data encs algs = .error .duplicateAlgorithm) ∧
    (data ≠ "" → (∀ es, encs = some es → es.Nodup) →
      ∀ l, algs = some l → l.Nodup → (∃ a ∈ l, a ∉ validAlgorithms) →
        get_stats data encs algs = .error .unsupportedAlgorithm) ∧
    AlgorithmType.MULTISCALE ∉ validAlgorithms := by
  refine ⟨?_, ?_, ?_, by decide⟩
  · intro h
    simp [get_stats, h]
  · intro hne hencs l hl hdup
    subst hl
    cases encs with
    | none => simp [get_stats, hne, get_statsAlgs, hdup]
    | some es => simp [get_stats, hne, hencs es rfl, get_statsAlgs, hdup]
  · intro hne hencs l hl hdup hex
    subst hl
    cases encs with
    | none => simp [get_stats, hne, get_statsAlgs, hdup, hex]
    | some es => simp [get_stats, hne, hencs es rfl, get_statsAlgs, hdup, hex]

/-- C6 witness: empty text, a duplicated selection, and a `MULTISCALE`
selection, each hitting its validation error. -/
theorem c6_validation_witness :
    get_stats "" none none = .error .invalidInput ∧
    get_stats "ab" none (some [.SHANNON, .SHANNON]) = .error .duplicateAlgorithm ∧
    get_stats "ab" none (some [.MULTISCALE]) = .error .unsupportedAlgorithm := by
  refine ⟨(c6_validation "" none none).1 rfl, ?_, ?_⟩
  · exact (c6_validation "ab" none _).2.1 (by decide) (by simp)
      [.SHANNON, .SHANNON] rfl (by decide)
  · exact (c6_validation "ab" none _).2.2.1 (by decide) (by simp)
      [.MULTISCALE] rfl (by decide) ⟨.MULTISCALE, by decide, by decide⟩

/-! ## The orchestrator's tolerance parameter (claim C2) -/

theorem popStd_eq_spec (xs : List ℝ) : popStd xs = popStdSpec xs := by
  rw [popStd, popStdSpec, list_map_sum_getD]

/-- C2 counterexample: for the encoded sequence `Ordinal("ab") = [97, 98]`
the tolerance the orchestrator supplies, `0.2 * x.std()` with NumPy's
default divisor `N`, differs from the claimed
`0.2 × sample standard deviation` (divisor `N - 1`): the former is
`0.2 · (1/2)`, the latter `0.2 · √(1/2)`. -/
theorem c2_tolerance_counterexample :
    orderTolerance (encodeR "ab" .ORDINAL)
      ≠ 0.2 * sampleStd (encodeR "ab" .ORDINAL) := by
  have h0 : encode "ab" .ORDINAL = [(97 : ℚ), 98] := by decide
  have h1 : encodeR "ab" .ORDINAL = [(97 : ℝ), 98] := by
    rw [encodeR, h0]
    norm_num
  have hm : mean [(97 : ℝ), 98] = 195 / 2 := by
    norm_num [mean, List.sum_cons, List.sum_nil]
  have hsq : (([(97 : ℝ), 98]).map (fun x => (x - mean [(97 : ℝ), 98]) ^ 2)).sum
      = 1 / 2 := by
    rw [hm]
    norm_num [List.sum_cons, List.sum_nil]
  have hpop : popStd [(97 : ℝ), 98] = 1 / 2 := by
    rw [popStd, hsq]
    norm_num
    rw [show (4 : ℝ) = 2 ^ 2 by norm_num, Real.sqrt_sq (by norm_num)]
    norm_num
  have hsamp : sampleStd [(97 : ℝ), 98] = Real.sqrt (1 / 2) := by
    rw [sampleStd, hsq]
    norm_num
  rw [h1, orderTolerance, hpop, hsamp]
  intro heq
  have hs : Real.sqrt (1 / 2) = 1 / 2 := by linarith
  have := Real.sq_sqrt (show (0 : ℝ) ≤ 1 / 2 by norm_num)
  rw [hs] at this
  norm_num at this

/-- C2 (amended): for every encoded sequence, the orchestrator supplies
the Approximate and Sample algorithms with embedding dimension `m = 2`
and tolerance `r = 0.2` times the POPULATION standard deviation of the
encoded sequence (divisor `N`, NumPy's `std()` default) — not the sample
standard deviation with divisor `N - 1`. -/
theorem c2_tolerance_population :
    (∀ x : List ℝ, orderTolerance x = 0.2 * popStdSpec x) ∧
    get_algorithm_function .APPROXIMATE
      = some (fun x => approximate_entropy x 2 (0.2 * popStdSpec x)) ∧
    get_algorithm_function .SAMPLE
      = some (fun x => sample_entropy x 2 (0.2 * popStdSpec x)) := by
  have ht : ∀ x : List ℝ, orderTolerance x = 0.2 * popStdSpec x := by
    intro x
    rw [orderTolerance, popStd_eq_spec]
  refine ⟨ht, ?_, ?_⟩
  · show some (fun x => approximate_entropy x 2 (orderTolerance x)) = some _
    congr 1
    funext x
    rw [ht x]
  · show some (fun x => sample_entropy x 2 (orderTolerance x)) = some _
    congr 1
    funext x
    rw [ht x]

/-! ## Approximate entropy (claim C5) -/

theorem apCount_eq_spec (ts : List ℝ) (dim : ℕ) (r : ℝ) (i : ℕ) :
    apCount ts dim r i = apCountSpec ts dim r i := by
  rw [apCount, apCountSpec, list_if_sum_eq_card]

theorem phi_eq_phiSpec (ts : List ℝ) (dim : ℕ) (r : ℝ)
    (h : 0 < ts.length + 1 - dim) : phi ts dim r = phiSpec ts dim r := by
  have hcast : (0 : ℝ) < ((ts.length + 1 - dim : ℕ) : ℝ) := by exact_mod_cast h
  simp only [phi, phiSpec]
  rw [RV.scaleDiv_eq_scale_inv _ _ hcast]
  congr 1
  rw [list_range_map_sum]
  refine Finset.sum_congr rfl ?_
  intro i _
  rw [apCount_eq_spec]

/-- C5 counterexample: at embedding dimension `m = 0` (with
`N = 4 ≥ m + 2`) the code raises a `ValueError` — `max` of the empty
window difference inside `_phi` — instead of returning
`|φ(0) − φ(1)|`. -/
theorem c5_apen_counterexample :
    approximate_entropy [(0 : ℝ), 1, 2, 3] 0 1 = .error () ∧
    0 + 2 ≤ ([(0 : ℝ), 1, 2, 3]).length := by
  constructor
  · simp [approximate_entropy]
  · simp

/-- C5 (amended): for every sequence of length `N ≥ m + 2` and embedding
dimension `m ≥ 1` (at `m = 0` the code raises instead — see the
counterexample), `approximate_entropy` builds all `N - m + 1` windows,
counts for each window the windows (itself included) within Chebyshev
distance `< r`, computes `φ(m) = (1/(N-m+1)) · Σ log(count_i/(N-m+1))`,
and returns `|φ(m) − φ(m+1)|`. -/
theorem c5_apen_formula (ts : List ℝ) (m : ℕ) (r : ℝ) (hm : 1 ≤ m)
    (hN : m + 2 ≤ ts.length) :
    approximate_entropy ts m r
      = .ok (RV.abs (phiSpec ts m r - phiSpec ts (m + 1) r)) := by
  rw [approximate_entropy, if_neg (by omega : ¬ (m = 0 ∨ ts.length < m)),
    phi_eq_phiSpec ts m r (by omega), phi_eq_phiSpec ts (m + 1) r (by omega)]

/-- C5 witness: the sequence `[0, 1, 0, 1]` with `m = 1`, `r = 1`. -/
theorem c5_apen_formula_witness :
    1 ≤ 1 ∧ 1 + 2 ≤ ([(0 : ℝ), 1, 0, 1]).length ∧
    approximate_entropy [(0 : ℝ), 1, 0, 1] 1 1
      = .ok (RV.abs (phiSpec [(0 : ℝ), 1, 0, 1] 1 1
          - phiSpec [(0 : ℝ), 1, 0, 1] 2 1)) :=
  ⟨le_rfl, by simp, c5_apen_formula _ 1 1 le_rfl (by simp)⟩

/-! ## Sample entropy (claim C3) -/

theorem sampCount_sum_eq (ts : List ℝ) (dim : ℕ) (r : ℝ) (iMax : ℕ) :
    ((List.range iMax).map (sampCount ts dim r)).sum
      = pairCountCode ts dim r iMax (ts.length + 1 - dim) := by
  rw [list_range_map_sum, pairCountCode,
    card_filter_product iMax (ts.length + 1 - dim)
      (fun i j => chebDist (win ts dim i) (win ts dim j) < r ∧ j ≠ i)]
  refine Finset.sum_congr rfl ?_
  intro i _
  rw [sampCount, list_if_sum_eq_card]

/-- C3 counterexample: on the constant sequence `[1, 1, 1, 1]` with
`m = 1`, `r = 1`, the code counts `B = 9` ordered pairs (the first index
stops at `N - m` while the windows number `N - m + 1`) and `A = 4`,
returning `-ln(4/9)`; the specification's full pair counts are `B = 12`,
`A = 6`, i.e. `-ln(1/2)`.  The two values differ. -/
theorem c3_sampen_counterexample :
    sample_entropy [(1 : ℝ), 1, 1, 1] 1 1
      ≠ .ok (sampleEntropySpec [(1 : ℝ), 1, 1, 1] 1 1) := by
  have hcode : sample_entropy [(1 : ℝ), 1, 1, 1] 1 1
      = .ok (RV.fin (-Real.log ((4 : ℝ) / 9))) := by
    rw [sample_entropy]
    norm_num [sampCount, win, chebDist, List.range_succ]
  have h12 : pairCountSpec [(1 : ℝ), 1, 1, 1] 1 1 = 12 := by
    rw [pairCountSpec]
    rw [Finset.filter_congr (q := fun p => p.1 ≠ p.2) ?_]
    · rw [show ((Finset.range ([(1 : ℝ), 1, 1, 1].length + 1 - 1) ×ˢ
          Finset.range ([(1 : ℝ), 1, 1, 1].length + 1 - 1)).filter
          (fun p => p.1 ≠ p.2)).card = 12 from by decide]
    · rintro ⟨i, j⟩ hp
      simp only [Finset.mem_product, Finset.mem_range, List.length_cons,
        List.length_nil] at hp
      obtain ⟨hi, hj⟩ := hp
      constructor
      · rintro ⟨h, _⟩; exact h
      · intro h
        refine ⟨h, ?_⟩
        interval_cases i <;> interval_cases j <;> norm_num [win, chebDist]
  have h6 : pairCountSpec [(1 : ℝ), 1, 1, 1] 2 1 = 6 := by
    rw [pairCountSpec]
    rw [Finset.filter_congr (q := fun p => p.1 ≠ p.2) ?_]
    · rw [show ((Finset.range ([(1 : ℝ), 1, 1, 1].length + 1 - 2) ×ˢ
          Finset.range ([(1 : ℝ), 1, 1, 1].length + 1 - 2)).filter
          (fun p => p.1 ≠ p.2)).card = 6 from by decide]
    · rintro ⟨i, j⟩ hp
      simp only [Finset.mem_product, Finset.mem_range, List.length_cons,
        List.length_nil] at hp
      obtain ⟨hi, hj⟩ := hp
      constructor
      · rintro ⟨h, _⟩; exact h
      · intro h
        refine ⟨h, ?_⟩
        interval_cases i <;> interval_cases j <;> norm_num [win, chebDist]
  have hspec : sampleEntropySpec [(1 : ℝ), 1, 1, 1] 1 1
      = RV.fin (-Real.log ((6 : ℝ) / 12)) := by
    simp only [sampleEntropySpec]
    rw [h12, h6]
    norm_num
  rw [hcode, hspec]
  intro h
  have hfin : RV.fin (-Real.log ((4 : ℝ) / 9)) = RV.fin (-Real.log ((6 : ℝ) / 12)) := by
    simpa using h
  have hlog : Real.log ((4 : ℝ) / 9) = Real.log ((6 : ℝ) / 12) := by
    have := RV.fin.inj hfin
    linarith
  have h49 : (4 : ℝ) / 9 = 6 / 12 := by
    have h1 : (0 : ℝ) < 4 / 9 := by norm_num
    have h2 : (0 : ℝ) < 6 / 12 := by norm_num
    have hexp := Real.exp_log h1
    rw [hlog, Real.exp_log h2] at hexp
    exact hexp.symm
  norm_num at h49

/-- C3 (amended): for every sequence and `m ≥ 1` (at `m = 0` on a
non-empty series the code raises), `sample_entropy` returns `-ln(A/B)`
where `B` counts ordered pairs `(i, j)` with `i` over the FIRST `N - m`
templates only and `j` over all `N - m + 1` length-`m` windows, `i ≠ j`,
Chebyshev distance `< r`, and `A` likewise with `i` over the first
`N - m - 1` templates and `j` over all `N - m` length-`(m+1)` windows;
whenever `A = 0` or `B = 0` it returns positive infinity rather than
raising. -/
theorem c3_sampen_formula (ts : List ℝ) (m : ℕ) (r : ℝ) (hm : 1 ≤ m) :
    sample_entropy ts m r =
      .ok (if 0 < pairCountCode ts m r (ts.length - m) (ts.length + 1 - m)
            ∧ 0 < pairCountCode ts (m + 1) r (ts.length - m - 1) (ts.length - m)
          then RV.fin (-Real.log
              ((pairCountCode ts (m + 1) r (ts.length - m - 1) (ts.length - m) : ℝ)
                / (pairCountCode ts m r (ts.length - m) (ts.length + 1 - m) : ℝ)))
          else RV.pinf) := by
  rw [sample_entropy, if_neg (by omega : ¬ (m = 0 ∧ 1 ≤ ts.length))]
  simp only
  rw [sampCount_sum_eq ts m r (ts.length - m),
    sampCount_sum_eq ts (m + 1) r (ts.length - m - 1),
    show ts.length + 1 - (m + 1) = ts.length - m by omega]
  split_ifs <;> rfl

/-- C3 witness: the sequence `[1, 1, 1, 1]` with `m = 1`, `r = 1`. -/
theorem c3_sampen_formula_witness :
    1 ≤ 1 ∧
    sample_entropy [(1 : ℝ), 1, 1, 1] 1 1 =
      .ok (if 0 < pairCountCode [(1 : ℝ), 1, 1, 1] 1 1
              ([(1 : ℝ), 1, 1, 1].length - 1) ([(1 : ℝ), 1, 1, 1].length + 1 - 1)
            ∧ 0 < pairCountCode [(1 : ℝ), 1, 1, 1] 2 1
              ([(1 : ℝ), 1, 1, 1].length - 1 - 1) ([(1 : ℝ), 1, 1, 1].length - 1)
          then RV.fin (-Real.log
              ((pairCountCode [(1 : ℝ), 1, 1, 1] 2 1
                  ([(1 : ℝ), 1, 1, 1].length - 1 - 1) ([(1 : ℝ), 1, 1, 1].length - 1) : ℝ)
                / (pairCountCode [(1 : ℝ), 1, 1, 1] 1 1
                  ([(1 : ℝ), 1, 1, 1].length - 1) ([(1 : ℝ), 1, 1, 1].length + 1 - 1) : ℝ)))
          else RV.pinf) :=
  ⟨le_rfl, c3_sampen_formula [(1 : ℝ), 1, 1, 1] 1 1 le_rfl⟩

/-! ## Shannon entropy (claim C7) -/

theorem list_map_sum_const {α : Type} (l : List α) (f : α → ℝ) (c : ℝ)
    (h : ∀ x ∈ l, f x = c) : (l.map f).sum = l.length * c := by
  induction l with
  | nil => simp
  | cons x rest ih =>
      rw [List.map_cons, List.sum_cons, h x (by simp),
        ih (fun y hy => h y (by simp [hy])), List.length_cons]
      push_cast
      ring

theorem dedup_const {α : Type} [DecidableEq α] (l : List α) (c : α)
    (hne : l ≠ []) (h : ∀ x ∈ l, x = c) : l.dedup = [c] := by
  induction l with
  | nil => exact absurd rfl hne
  | cons x rest ih =>
      have hx : x = c := h x (by simp)
      subst hx
      cases rest with
      | nil => simp
      | cons y t =>
          have hrest : (y :: t).dedup = [x] := by
            have hy : y = x := h y (by simp)
            exact ih (by simp) (fun z hz => h z (by simp [hz]))
          rw [List.dedup_cons_of_mem (by rw [h y (by simp)]; exact List.mem_cons_self _ _),
            hrest]

/-- Both branches of `shannon_entropy` compute `-Σ p · log_base p`. -/
theorem shannon_entropy_eq_logb (data : List ℝ) (base : ℝ) :
    shannon_entropy data base
      = -((data.dedup.map (fun v => ((data.count v : ℝ) / (data.length : ℝ))
          * Real.logb base ((data.count v : ℝ) / (data.length : ℝ)))).sum) := by
  by_cases hb : base = 2
  · subst hb
    simp only [shannon_entropy, ite_true, if_pos]
    rw [List.map_map]
    rfl
  · simp only [shannon_entropy, if_neg hb]
    rw [List.map_map]
    rfl

/-- C7: for every non-empty sequence and valid base,
`shannon_entropy` is `0` on a constant sequence and `log_base k` on a
sequence uniformly distributed over `k` distinct values. -/
theorem c7_shannon_values (data : List ℝ) (base : ℝ) (k : ℕ) (hne : data ≠ [])
    (hb0 : 0 < base) (hb1 : base ≠ 1) :
    ((∃ c, ∀ x ∈ data, x = c) → shannon_entropy data base = 0) ∧
    (data.dedup.length = k → (∀ v ∈ data.dedup, data.count v * k = data.length) →
      shannon_entropy data base = Real.logb base (k : ℝ)) := by
  have hlen0 : data.length ≠ 0 := fun h => hne (List.length_eq_zero.1 h)
  have hlenR : (data.length : ℝ) ≠ 0 := Nat.cast_ne_zero.2 hlen0
  constructor
  · rintro ⟨c, hc⟩
    rw [shannon_entropy_eq_logb, dedup_const data c hne hc]
    have hcount : data.count c = data.length :=
      List.count_eq_length.2 (fun b hb => (hc b hb).symm)
    simp [hcount, div_self hlenR, Real.logb_one]
  · intro hk hcount
    have hk0 : k ≠ 0 := by
      intro h0
      subst h0
      rw [List.length_eq_zero, List.dedup_eq_nil] at hk
      exact hne hk
    have hkR : (k : ℝ) ≠ 0 := Nat.cast_ne_zero.2 hk0
    rw [shannon_entropy_eq_logb]
    have hterm : ∀ v ∈ data.dedup,
        ((data.count v : ℝ) / (data.length : ℝ))
            * Real.logb base ((data.count v : ℝ) / (data.length : ℝ))
          = (1 / (k : ℝ)) * Real.logb base (1 / (k : ℝ)) := by
      intro v hv
      have hcv : ((data.count v : ℝ)) * (k : ℝ) = (data.length : ℝ) := by
        exact_mod_cast congrArg (fun n : ℕ => (n : ℝ)) (hcount v hv)
      have hdiv : (data.count v : ℝ) / (data.length : ℝ) = 1 / (k : ℝ) := by
        rw [div_eq_div_iff hlenR hkR]
        linarith [hcv]
      rw [hdiv]
    rw [list_map_sum_const _ _ _ hterm, hk, one_div, Real.logb_inv]
    field_simp

/-- C7 witness: `[10, 20, 30, 40]` is uniform over `k = 4` distinct
values; with base 2 the entropy is `log2 4 = 2.0`. -/
theorem c7_shannon_values_witness :
    ([(10 : ℝ), 20, 30, 40] ≠ []) ∧ (0 : ℝ) < 2 ∧ (2 : ℝ) ≠ 1 ∧
    shannon_entropy [(10 : ℝ), 20, 30, 40] 2 = Real.logb 2 ((4 : ℕ) : ℝ) ∧
    shannon_entropy [(10 : ℝ), 20, 30, 40] 2 = 2 := by
  have hded : ([(10 : ℝ), 20, 30, 40]).dedup = [10, 20, 30, 40] := by
    norm_num [List.dedup_cons_of_not_mem]
  have hcounts : ∀ v ∈ ([(10 : ℝ), 20, 30, 40]).dedup,
      ([(10 : ℝ), 20, 30, 40]).count v * 4 = ([(10 : ℝ), 20, 30, 40]).length := by
    rw [hded]
    intro v hv
    fin_cases hv <;> norm_num [List.count_cons]
  have hmain := (c7_shannon_values [(10 : ℝ), 20, 30, 40] 2 4 (by simp)
    (by norm_num) (by norm_num)).2 (by rw [hded]; rfl) hcounts
  have hlogb : Real.logb 2 ((4 : ℕ) : ℝ) = 2 := by
    rw [show (((4 : ℕ) : ℝ)) = (2 : ℝ) ^ (2 : ℕ) by norm_num, Real.logb_pow,
      Real.logb_self_eq_one (by norm_num)]
    norm_num
  exact ⟨by simp, by norm_num, by norm_num, hmain, by rw [hmain, hlogb]⟩

/-! ## The default end-to-end run on `"aaaa"` (claim C1) -/

theorem RV.add_def (a b : RV) : a + b = RV.add a b := rfl

theorem RV.zero_def : (0 : RV) = RV.fin 0 := rfl

theorem RV.sub_def (a b : RV) : a - b = RV.add a (RV.neg b) := rfl

theorem encodeR_aaaa : encodeR "aaaa" .FREQUENCY = [(1 : ℝ), 1, 1, 1] := by
  have hq : encode "aaaa" .FREQUENCY = [1, 1, 1, 1] := by
    show frequency_encode "aaaa" = _
    rw [frequency_encode, show "aaaa".data = ['a', 'a', 'a', 'a'] from rfl]
    norm_num [List.count_cons]
  rw [encodeR, hq]
  norm_num

theorem orderTolerance_const4 : orderTolerance [(1 : ℝ), 1, 1, 1] = 0 := by
  have hmean : mean [(1 : ℝ), 1, 1, 1] = 1 := by
    norm_num [mean, List.sum_cons, List.sum_nil]
  rw [orderTolerance, popStd, hmean]
  norm_num

theorem apen_aaaa : approximate_entropy [(1 : ℝ), 1, 1, 1] 2 0 = .ok RV.nan := by
  have hphi2 : phi [(1 : ℝ), 1, 1, 1] 2 0 = RV.ninf := by
    simp only [phi]
    norm_num [apCount, win, chebDist, List.range_succ, RV.add_def, RV.add,
      RV.zero_def, RV.log, RV.scaleDiv]
  have hphi3 : phi [(1 : ℝ), 1, 1, 1] 3 0 = RV.ninf := by
    simp only [phi]
    norm_num [apCount, win, chebDist, List.range_succ, RV.add_def, RV.add,
      RV.zero_def, RV.log, RV.scaleDiv]
  rw [approximate_entropy, if_neg (by norm_num), hphi2, hphi3]
  rfl

theorem sampen_aaaa : sample_entropy [(1 : ℝ), 1, 1, 1] 2 0 = .ok RV.pinf := by
  rw [sample_entropy]
  norm_num [sampCount, win, chebDist, List.range_succ]

theorem get_stats_aaaa :
    get_stats "aaaa" none none
      = .error (.processing .FREQUENCY (.calcError .APPROXIMATE .notFinite)) := by
  have hrun : runAlgs [(1 : ℝ), 1, 1, 1] "frequency" validAlgorithms
      = .error (.calcError .APPROXIMATE .notFinite) := by
    show runAlgs _ _ [.SHANNON, .APPROXIMATE, .SAMPLE, .PERMUTATION] = _
    simp only [runAlgs, calculate_entropy, get_algorithm_function]
    rw [orderTolerance_const4, apen_aaaa]
    rfl
  rw [get_stats, if_neg (by decide)]
  show get_statsAlgs "aaaa" [.FREQUENCY] none = _
  rw [get_statsAlgs, get_statsRun]
  have henc : runEncodings "aaaa" validAlgorithms [.FREQUENCY]
      = .error (.processing .FREQUENCY (.calcError .APPROXIMATE .notFinite)) := by
    simp only [runEncodings, encodeR_aaaa]
    rw [if_neg (by norm_num)]
    rw [show EncodingModel.value .FREQUENCY = "frequency" from rfl, hrun]
  rw [henc]

theorem calculate_entropy_shannon_ok (data : List ℝ) (s : String) :
    calculate_entropy data s .SHANNON
      = .ok ⟨s, AlgorithmType.SHANNON.value, RV.fin (shannon_entropy data 2)⟩ := by
  simp [calculate_entropy, get_algorithm_function, RV.isFinite]

theorem calculate_entropy_permutation_ok (data : List ℝ) (s : String) :
    calculate_entropy data s .PERMUTATION
      = .ok ⟨s, AlgorithmType.PERMUTATION.value, permutation_entropy data 3 1⟩ := by
  simp [calculate_entropy, get_algorithm_function, permutation_entropy, RV.isFinite]

theorem calc_aaaa_approx (s : String) :
    calculate_entropy [(1 : ℝ), 1, 1, 1] s .APPROXIMATE
      = .error (.calcError .APPROXIMATE .notFinite) := by
  simp only [calculate_entropy, get_algorithm_function]
  rw [orderTolerance_const4, apen_aaaa]
  rfl

theorem calc_aaaa_sample (s : String) :
    calculate_entropy [(1 : ℝ), 1, 1, 1] s .SAMPLE
      = .error (.calcError .SAMPLE .notFinite) := by
  simp only [calculate_entropy, get_algorithm_function]
  rw [orderTolerance_const4, sampen_aaaa]
  rfl

/-- On the encoded run for `"aaaa"`, EVERY selection of validated
algorithms containing Approximate or Sample fails at the first of the
two it reaches, with the non-finite reason. -/
theorem runAlgs_aaaa (s : String) (l : List AlgorithmType)
    (hmem : ∀ a ∈ l, a ∈ validAlgorithms)
    (hbad : AlgorithmType.APPROXIMATE ∈ l ∨ AlgorithmType.SAMPLE ∈ l) :
    ∃ a, (a = AlgorithmType.APPROXIMATE ∨ a = AlgorithmType.SAMPLE) ∧
      runAlgs [(1 : ℝ), 1, 1, 1] s l = .error (.calcError a .notFinite) := by
  induction l with
  | nil => simp at hbad
  | cons a0 rest ih =>
      have ha0 : a0 ∈ validAlgorithms := hmem a0 (by simp)
      have hmem' : ∀ x ∈ rest, x ∈ validAlgorithms := fun x hx => hmem x (by simp [hx])
      fin_cases ha0
      · -- a0 = SHANNON
        have hbad' : AlgorithmType.APPROXIMATE ∈ rest ∨ AlgorithmType.SAMPLE ∈ rest := by
          rcases hbad with h | h
          · rcases List.mem_cons.1 h with heq | h'
            · exact absurd heq (by decide)
            · exact Or.inl h'
          · rcases List.mem_cons.1 h with heq | h'
            · exact absurd heq (by decide)
            · exact Or.inr h'
        obtain ⟨a, hpair, hrest⟩ := ih hmem' hbad'
        refine ⟨a, hpair, ?_⟩
        rw [runAlgs, calculate_entropy_shannon_ok, hrest]
      · -- a0 = APPROXIMATE
        refine ⟨.APPROXIMATE, Or.inl rfl, ?_⟩
        rw [runAlgs, calc_aaaa_approx]
      · -- a0 = SAMPLE
        refine ⟨.SAMPLE, Or.inr rfl, ?_⟩
        rw [runAlgs, calc_aaaa_sample]
      · -- a0 = PERMUTATION
        have hbad' : AlgorithmType.APPROXIMATE ∈ rest ∨ AlgorithmType.SAMPLE ∈ rest := by
          rcases hbad with h | h
          · rcases List.mem_cons.1 h with heq | h'
            · exact absurd heq (by decide)
            · exact Or.inl h'
          · rcases List.mem_cons.1 h with heq | h'
            · exact absurd heq (by decide)
            · exact Or.inr h'
        obtain ⟨a, hpair, hrest⟩ := ih hmem' hbad'
        refine ⟨a, hpair, ?_⟩
        rw [runAlgs, calculate_entropy_permutation_ok, hrest]

/-- The defaulted run on `"aaaa"` fails naming the Frequency encoding and
one of Approximate/Sample, for EVERY ordering of the defaulted
algorithm set. -/
theorem get_statsRun_aaaa (l : List AlgorithmType)
    (hperm : l.Perm validAlgorithms) :
    ∃ a, (a = AlgorithmType.APPROXIMATE ∨ a = AlgorithmType.SAMPLE) ∧
      get_statsRun "aaaa" [.FREQUENCY] l
        = .error (.processing .FREQUENCY (.calcError a .notFinite)) := by
  have hmem : ∀ a ∈ l, a ∈ validAlgorithms := fun a ha => hperm.mem_iff.1 ha
  have hbad : AlgorithmType.APPROXIMATE ∈ l := hperm.mem_iff.2 (by decide)
  obtain ⟨a, hpair, hrun⟩ :=
    runAlgs_aaaa (EncodingModel.value .FREQUENCY) l hmem (Or.inl hbad)
  refine ⟨a, hpair, ?_⟩
  have henc : runEncodings "aaaa" l [.FREQUENCY]
      = .error (.processing .FREQUENCY (.calcError a .notFinite)) := by
    simp only [runEncodings, encodeR_aaaa]
    rw [if_neg (by norm_num), hrun]
  rw [get_statsRun, henc]

/-- C1 counterexample: `get_stats("aaaa")` with all parameters defaulted
does NOT return a result list at all — the call fails (the claim asserts
it returns exactly 4 results with finite entropies). -/
theorem c1_default_run_counterexample : (get_stats "aaaa" none none).isOk = false := by
  rw [get_stats_aaaa]
  rfl

/-- C1 (amended): `get_stats("aaaa")` with all parameters defaulted fails
with the non-finite-result error naming the Frequency encoding and one
of the Approximate/Sample algorithms: the Frequency encoding of `"aaaa"`
is the constant sequence `[1, 1, 1, 1]`, so the supplied tolerance
`r = 0.2 × std` is `0`, making the Approximate value `NaN` and the
Sample value `+inf`.  WHICH of the two is named depends on Python's
unspecified (hash-randomized) iteration order of the defaulted algorithm
set, so the failure is proved for every ordering of that set (first
conjunct) and instantiated at the embedding's representative source
order (second conjunct).  The Shannon entropy of the encoded sequence
alone is `0`, as the claim states. -/
theorem c1_default_run_fails :
    (∀ l : List AlgorithmType, l.Perm validAlgorithms →
      ∃ a, (a = AlgorithmType.APPROXIMATE ∨ a = AlgorithmType.SAMPLE) ∧
        get_statsRun "aaaa" [.FREQUENCY] l
          = .error (.processing .FREQUENCY (.calcError a .notFinite))) ∧
    (∃ a, (a = AlgorithmType.APPROXIMATE ∨ a = AlgorithmType.SAMPLE) ∧
      get_stats "aaaa" none none
        = .error (.processing .FREQUENCY (.calcError a .notFinite))) ∧
    rawCompute "aaaa" .FREQUENCY .APPROXIMATE = .ok RV.nan ∧
    rawCompute "aaaa" .FREQUENCY .SAMPLE = .ok RV.pinf ∧
    shannon_entropy (encodeR "aaaa" .FREQUENCY) 2 = 0 := by
  refine ⟨fun l hl => get_statsRun_aaaa l hl,
    ⟨.APPROXIMATE, Or.inl rfl, get_stats_aaaa⟩, ?_, ?_, ?_⟩
  · show approximate_entropy (encodeR "aaaa" .FREQUENCY) 2
        (orderTolerance (encodeR "aaaa" .FREQUENCY)) = .ok RV.nan
    rw [encodeR_aaaa, orderTolerance_const4, apen_aaaa]
  · show sample_entropy (encodeR "aaaa" .FREQUENCY) 2
        (orderTolerance (encodeR "aaaa" .FREQUENCY)) = .ok RV.pinf
    rw [encodeR_aaaa, orderTolerance_const4, sampen_aaaa]
  · rw [encodeR_aaaa, shannon_entropy_eq_logb,
      dedup_const [(1 : ℝ), 1, 1, 1] 1 (by simp) (by intro x hx; fin_cases hx <;> rfl)]
    norm_num [List.count_cons]

/-- C1 witness: an ordering of the defaulted algorithm set different
from the source order (here Sample precedes Approximate) also fails
naming one of the two. -/
theorem c1_default_run_fails_witness :
    ([AlgorithmType.PERMUTATION, .SAMPLE, .APPROXIMATE, .SHANNON]
        : List AlgorithmType).Perm validAlgorithms ∧
    ∃ a, (a = AlgorithmType.APPROXIMATE ∨ a = AlgorithmType.SAMPLE) ∧
      get_statsRun "aaaa" [.FREQUENCY]
          [AlgorithmType.PERMUTATION, .SAMPLE, .APPROXIMATE, .SHANNON]
        = .error (.processing .FREQUENCY (.calcError a .notFinite)) :=
  ⟨by decide, c1_default_run_fails.1 _ (by decide)⟩

/-! ## The non-finiteness policy of the orchestrator (claim C4) -/

theorem get_algorithm_function_isSome (a : AlgorithmType)
    (h : a ∈ validAlgorithms) : ∃ f, get_algorithm_function a = some f := by
  fin_cases h <;> exact ⟨_, rfl⟩

theorem charBits_ne_nil (n : ℕ) : charBits n ≠ [] := by
  rw [charBits]
  by_cases h : n = 0
  · simp [h]
  · simp [h, natBits_ne_nil n (Nat.one_le_iff_ne_zero.2 h)]

theorem string_data_ne_nil (text : String) (h : text ≠ "") : text.data ≠ [] := by
  intro hnil
  apply h
  cases text
  simp only at hnil
  rw [hnil]

theorem encodeR_length_pos (text : String) (h : text ≠ "") (e : EncodingModel) :
    0 < (encodeR text e).length := by
  have hd : text.data ≠ [] := string_data_ne_nil text h
  rw [encodeR, List.length_map]
  cases e with
  | ORDINAL =>
      show 0 < (ordinal_encode text).length
      rw [ordinal_encode, List.length_map]
      exact List.length_pos.2 hd
  | FREQUENCY =>
      show 0 < (frequency_encode text).length
      rw [frequency_encode, List.length_map]
      exact List.length_pos.2 hd
  | ONE_HOT =>
      show 0 < (one_hot_encode text).length
      have hlen : (one_hot_encode text).length
          = text.data.length * (uniqueChars text).length :=
        flatMap_length_const text.data
          (fun c => oneHotRow ((uniqueChars text).indexOf c) (uniqueChars text).length)
          (uniqueChars text).length (fun _ _ => oneHotRow_length _ _)
      rw [hlen]
      refine Nat.mul_pos (List.length_pos.2 hd) ?_
      rw [uniqueChars, sortChars_length]
      exact List.length_pos.2 (fun hnil => hd ((List.dedup_eq_nil _).1 hnil))
  | BINARY =>
      show 0 < (binary_encode text).length
      obtain ⟨c, t, hct⟩ := List.exists_cons_of_ne_nil hd
      rw [binary_encode, hct, List.flatMap_cons, List.length_append, List.length_map]
      have := List.length_pos.2 (charBits_ne_nil c.toNat)
      omega

theorem calculate_entropy_cases (text : String) (e : EncodingModel) (s : String)
    (a : AlgorithmType) (f : List ℝ → Except Unit RV)
    (hf : get_algorithm_function a = some f)
    (v : RV) (hv : rawCompute text e a = .ok v) :
    calculate_entropy (encodeR text e) s a
      = if v.isFinite then .ok ⟨s, a.value, v⟩
        else .error (.calcError a .notFinite) := by
  simp only [rawCompute, hf] at hv
  simp only [calculate_entropy, hf, hv]

theorem calculate_entropy_ok_finite (data : List ℝ) (s : String)
    (a : AlgorithmType) (r : EntropyResult)
    (h : calculate_entropy data s a = .ok r) : r.entropy.isFinite = true := by
  cases hf : get_algorithm_function a with
  | none => simp [calculate_entropy, hf] at h
  | some f =>
      simp only [calculate_entropy, hf] at h
      cases hv : f data with
      | error e => simp [hv] at h
      | ok v =>
          simp only [hv] at h
          by_cases hfin : v.isFinite
          · rw [if_pos hfin] at h
            have := Except.ok.inj h
            rw [← this]
            exact hfin
          · rw [if_neg hfin] at h
            simp at h

theorem runAlgs_ok_finite (data : List ℝ) (s : String)
    (algs : List AlgorithmType) (res : List EntropyResult)
    (h : runAlgs data s algs = .ok res) :
    ∀ r ∈ res, r.entropy.isFinite = true := by
  induction algs generalizing res with
  | nil =>
      rw [runAlgs] at h
      have := Except.ok.inj h
      subst this
      intro r hr
      simp at hr
  | cons a rest ih =>
      cases hc : calculate_entropy data s a with
      | error e => simp [runAlgs, hc] at h
      | ok r0 =>
          cases hr : runAlgs data s rest with
          | error e => simp [runAlgs, hc, hr] at h
          | ok rs =>
              simp only [runAlgs, hc, hr] at h
              have := Except.ok.inj h
              subst this
              intro r hrmem
              rcases List.mem_cons.1 hrmem with rfl | hmem
              · exact calculate_entropy_ok_finite data s a r hc
              · exact ih rs hr r hmem

theorem runAlgs_notFinite (text : String) (e : EncodingModel) (s : String)
    (algs : List AlgorithmType)
    (hvalid : ∀ a ∈ algs, a ∈ validAlgorithms)
    (hok : ∀ a ∈ algs, ∃ v, rawCompute text e a = .ok v)
    (hbad : ∃ a ∈ algs, ∃ v, rawCompute text e a = .ok v ∧ v.isFinite = false) :
    ∃ a, runAlgs (encodeR text e) s algs = .error (.calcError a .notFinite)
      ∧ ∃ v, rawCompute text e a = .ok v ∧ v.isFinite = false := by
  induction algs with
  | nil =>
      obtain ⟨a, ha, _⟩ := hbad
      simp at ha
  | cons a0 rest ih =>
      obtain ⟨f0, hf0⟩ := get_algorithm_function_isSome a0 (hvalid a0 (by simp))
      obtain ⟨v0, hv0⟩ := hok a0 (by simp)
      by_cases hfin0 : v0.isFinite
      · have hbad' : ∃ a ∈ rest, ∃ v, rawCompute text e a = .ok v
            ∧ v.isFinite = false := by
          obtain ⟨a, ha, v, hv, hb⟩ := hbad
          rcases List.mem_cons.1 ha with rfl | ha'
          · rw [hv0] at hv
            have := Except.ok.inj hv
            subst this
            rw [hfin0] at hb
            cases hb
          · exact ⟨a, ha', v, hv, hb⟩
        obtain ⟨a, hra, hwit⟩ := ih (fun x hx => hvalid x (by simp [hx]))
          (fun x hx => hok x (by simp [hx])) hbad'
        refine ⟨a, ?_, hwit⟩
        rw [runAlgs, calculate_entropy_cases text e s a0 f0 hf0 v0 hv0,
          if_pos hfin0, hra]
      · refine ⟨a0, ?_, v0, hv0, by simpa using hfin0⟩
        rw [runAlgs, calculate_entropy_cases text e s a0 f0 hf0 v0 hv0,
          if_neg hfin0]

theorem runAlgs_allFinite (text : String) (e : EncodingModel) (s : String)
    (algs : List AlgorithmType)
    (hvalid : ∀ a ∈ algs, a ∈ validAlgorithms)
    (hok : ∀ a ∈ algs, ∃ v, rawCompute text e a = .ok v ∧ v.isFinite = true) :
    ∃ rs, runAlgs (encodeR text e) s algs = .ok rs := by
  induction algs with
  | nil => exact ⟨[], rfl⟩
  | cons a0 rest ih =>
      obtain ⟨f0, hf0⟩ := get_algorithm_function_isSome a0 (hvalid a0 (by simp))
      obtain ⟨v0, hv0, hfin0⟩ := hok a0 (by simp)
      obtain ⟨rs, hrs⟩ := ih (fun x hx => hvalid x (by simp [hx]))
        (fun x hx => hok x (by simp [hx]))
      refine ⟨⟨s, a0.value, v0⟩ :: rs, ?_⟩
      rw [runAlgs, calculate_entropy_cases text e s a0 f0 hf0 v0 hv0,
        if_pos hfin0, hrs]

theorem runEncodings_notFinite (text : String) (algs : List AlgorithmType)
    (encs : List EncodingModel) (htext : text ≠ "")
    (hvalid : ∀ a ∈ algs, a ∈ validAlgorithms)
    (hok : ∀ e ∈ encs, ∀ a ∈ algs, ∃ v, rawCompute text e a = .ok v)
    (hbad : ∃ e ∈ encs, ∃ a ∈ algs, ∃ v, rawCompute text e a = .ok v
      ∧ v.isFinite = false) :
    ∃ e a, runEncodings text algs encs
        = .error (.processing e (.calcError a .notFinite))
      ∧ ∃ v, rawCompute text e a = .ok v ∧ v.isFinite = false := by
  induction encs with
  | nil =>
      obtain ⟨e, he, _⟩ := hbad
      simp at he
  | cons e0 rest ih =>
      have hlen : ¬ (encodeR text e0).length = 0 := by
        have := encodeR_length_pos text htext e0
        omega
      by_cases hbad0 : ∃ a ∈ algs, ∃ v, rawCompute text e0 a = .ok v
          ∧ v.isFinite = false
      · obtain ⟨a, hra, hwit⟩ := runAlgs_notFinite text e0 e0.value algs hvalid
          (hok e0 (by simp)) hbad0
        refine ⟨e0, a, ?_, hwit⟩
        simp only [runEncodings]
        rw [if_neg hlen, hra]
      · have hfin : ∀ a ∈ algs, ∃ v, rawCompute text e0 a = .ok v
            ∧ v.isFinite = true := by
          intro a ha
          obtain ⟨v, hv⟩ := hok e0 (by simp) a ha
          refine ⟨v, hv, ?_⟩
          by_contra hnf
          exact hbad0 ⟨a, ha, v, hv, by simpa using hnf⟩
        obtain ⟨rs, hrs⟩ := runAlgs_allFinite text e0 e0.value algs hvalid hfin
        have hbad' : ∃ e ∈ rest, ∃ a ∈ algs, ∃ v, rawCompute text e a = .ok v
            ∧ v.isFinite = false := by
          obtain ⟨e, he, a, ha, v, hv, hb⟩ := hbad
          rcases List.mem_cons.1 he with rfl | he'
          · exact absurd ⟨a, ha, v, hv, hb⟩ hbad0
          · exact ⟨e, he', a, ha, v, hv, hb⟩
        obtain ⟨e, a, hre, hwit⟩ := ih (fun e' he' => hok e' (by simp [he'])) hbad'
        refine ⟨e, a, ?_, hwit⟩
        simp only [runEncodings]
        rw [if_neg hlen, hrs, hre]

theorem runEncodings_ok_finite (text : String) (algs : List AlgorithmType)
    (encs : List EncodingModel) (res : List EntropyResult)
    (h : runEncodings text algs encs = .ok res) :
    ∀ r ∈ res, r.entropy.isFinite = true := by
  induction encs generalizing res with
  | nil =>
      rw [runEncodings] at h
      have := Except.ok.inj h
      subst this
      intro r hr
      simp at hr
  | cons e0 rest ih =>
      simp only [runEncodings] at h
      by_cases hlen : (encodeR text e0).length = 0
      · rw [if_pos hlen] at h; simp at h
      · rw [if_neg hlen] at h
        cases hra : runAlgs (encodeR text e0) e0.value algs with
        | error pe => simp [hra] at h
        | ok rs =>
            cases hre : runEncodings text algs rest with
            | error oe => simp [hra, hre] at h
            | ok rest' =>
                simp only [hra, hre] at h
                have := Except.ok.inj h
                subst this
                intro r hrmem
                rcases List.mem_append.1 hrmem with hmem | hmem
                · exact runAlgs_ok_finite (encodeR text e0) e0.value algs rs hra r hmem
                · exact ih rest' hre r hmem

theorem get_statsRun_ok_finite (data : String) (encs : List EncodingModel)
    (algs : List AlgorithmType) (res : List EntropyResult)
    (h : get_statsRun data encs algs = .ok res) :
    ∀ r ∈ res, r.entropy.isFinite = true := by
  cases hre : runEncodings data algs encs with
  | error e => simp [get_statsRun, hre] at h
  | ok res' =>
      simp only [get_statsRun, hre] at h
      by_cases hemp : res'.isEmpty
      · rw [if_pos hemp] at h; simp at h
      · rw [if_neg hemp] at h
        have := Except.ok.inj h
        subst this
        exact runEncodings_ok_finite data algs encs res' hre

theorem get_statsAlgs_ok_finite (data : String) (encs : List EncodingModel)
    (algs : Option (List AlgorithmType)) (res : List EntropyResult)
    (h : get_statsAlgs data encs algs = .ok res) :
    ∀ r ∈ res, r.entropy.isFinite = true := by
  cases algs with
  | none =>
      simp only [get_statsAlgs] at h
      exact get_statsRun_ok_finite data encs validAlgorithms res h
  | some l =>
      simp only [get_statsAlgs] at h
      by_cases hnd : l.Nodup
      · rw [if_neg (not_not.2 hnd)] at h
        by_cases hex : ∃ a ∈ l, a ∉ validAlgorithms
        · rw [if_pos hex] at h; simp at h
        · rw [if_neg hex] at h
          exact get_statsRun_ok_finite data encs l res h
      · rw [if_pos hnd] at h; simp at h

/-- C4: when the orchestrator's results are returned, every record's
entropy is finite; and (under passing validation, with every
per-pair computation returning a value) if any computed
`(encoding, algorithm)` entropy is non-finite, the entire call fails with
the non-finite error naming an offending (non-finite) pair — no result
collection containing a non-finite entropy is ever returned. -/
theorem c4_nonfinite_policy (data : String) (encs : Option (List EncodingModel))
    (algs : Option (List AlgorithmType)) :
    (∀ res, get_stats data encs algs = .ok res →
      ∀ r ∈ res, r.entropy.isFinite = true) ∧
    (data ≠ "" →
      (∀ es, encs = some es → es.Nodup) →
      (∀ l, algs = some l → l.Nodup ∧ ∀ a ∈ l, a ∈ validAlgorithms) →
      (∀ e ∈ encs.getD [.FREQUENCY], ∀ a ∈ algs.getD validAlgorithms,
        ∃ v, rawCompute data e a = .ok v) →
      (∃ e ∈ encs.getD [.FREQUENCY], ∃ a ∈ algs.getD validAlgorithms,
        ∃ v, rawCompute data e a = .ok v ∧ v.isFinite = false) →
      ∃ e a, get_stats data encs algs
          = .error (.processing e (.calcError a .notFinite))
        ∧ ∃ v, rawCompute data e a = .ok v ∧ v.isFinite = false) := by
  constructor
  · intro res h
    by_cases hdata : data = ""
    · simp [get_stats, hdata] at h
    · cases encs with
      | none =>
          simp only [get_stats] at h
          rw [if_neg hdata] at h
          exact get_statsAlgs_ok_finite data [.FREQUENCY] algs res h
      | some es =>
          simp only [get_stats] at h
          rw [if_neg hdata] at h
          by_cases hnd : es.Nodup
          · rw [if_neg (not_not.2 hnd)] at h
            exact get_statsAlgs_ok_finite data es algs res h
          · rw [if_pos hnd] at h; simp at h
  · intro hdata hencsnd halgsvalid hok hbad
    have hvalid : ∀ a ∈ algs.getD validAlgorithms, a ∈ validAlgorithms := by
      cases algs with
      | none => intro a ha; simpa using ha
      | some l => exact (halgsvalid l rfl).2
    obtain ⟨e, a, hre, hwit⟩ := runEncodings_notFinite data
      (algs.getD validAlgorithms) (encs.getD [.FREQUENCY]) hdata hvalid hok hbad
    refine ⟨e, a, ?_, hwit⟩
    cases encs with
    | none =>
        simp only [Option.getD_none] at hre
        simp only [get_stats]
        rw [if_neg hdata]
        cases algs with
        | none =>
            simp only [Option.getD_none] at hre
            simp only [get_statsAlgs]
            rw [get_statsRun, hre]
        | some l =>
            simp only [Option.getD_some] at hre
            obtain ⟨hnd, hval⟩ := halgsvalid l rfl
            simp only [get_statsAlgs]
            rw [if_neg (not_not.2 hnd),
              if_neg (fun ⟨x, hx, hnx⟩ => hnx (hval x hx)), get_statsRun, hre]
    | some es =>
        simp only [Option.getD_some] at hre
        simp only [get_stats]
        rw [if_neg hdata, if_neg (not_not.2 (hencsnd es rfl))]
        cases algs with
        | none =>
            simp only [Option.getD_none] at hre
            simp only [get_statsAlgs]
            rw [get_statsRun, hre]
        | some l =>
            simp only [Option.getD_some] at hre
            obtain ⟨hnd, hval⟩ := halgsvalid l rfl
            simp only [get_statsAlgs]
            rw [if_neg (not_not.2 hnd),
              if_neg (fun ⟨x, hx, hnx⟩ => hnx (hval x hx)), get_statsRun, hre]

theorem encodeR_ab_freq : encodeR "ab" .FREQUENCY = [(1 : ℝ) / 2, 1 / 2] := by
  have hq : encode "ab" .FREQUENCY = [1 / 2, 1 / 2] := by
    show frequency_encode "ab" = _
    rw [frequency_encode, show "ab".data = ['a', 'b'] from rfl]
    norm_num [List.count_cons, (by decide : ¬ ('b' = 'a')), (by decide : ¬ ('a' = 'b'))]
  rw [encodeR, hq]
  norm_num

theorem sampen_short (r : ℝ) : sample_entropy [(1 : ℝ) / 2, 1 / 2] 2 r = .ok RV.pinf := by
  rw [sample_entropy, if_neg (by norm_num)]
  norm_num

theorem rawCompute_ab_sample : rawCompute "ab" .FREQUENCY .SAMPLE = .ok RV.pinf := by
  show sample_entropy (encodeR "ab" .FREQUENCY)
      2 (orderTolerance (encodeR "ab" .FREQUENCY)) = _
  rw [encodeR_ab_freq, sampen_short]

/-- C4 witness: text `"ab"`, encoding `Frequency`, algorithm `Sample`:
the encoded sequence `[1/2, 1/2]` is too short for `m = 2`, Sample
entropy is `+inf`, and the call fails naming the pair. -/
theorem c4_nonfinite_policy_witness :
    ("ab" ≠ "") ∧
    rawCompute "ab" .FREQUENCY .SAMPLE = .ok RV.pinf ∧
    RV.pinf.isFinite = false ∧
    ∃ e a, get_stats "ab" (some [.FREQUENCY]) (some [.SAMPLE])
        = .error (.processing e (.calcError a .notFinite))
      ∧ ∃ v, rawCompute "ab" e a = .ok v ∧ v.isFinite = false := by
  refine ⟨by decide, rawCompute_ab_sample, rfl, ?_⟩
  exact (c4_nonfinite_policy "ab" (some [.FREQUENCY]) (some [.SAMPLE])).2
    (by decide)
    (fun es h => by cases h; decide)
    (fun l h => by cases h; exact ⟨by decide, by decide⟩)
    (fun e he a ha => by
      simp only [Option.getD_some] at he ha
      fin_cases he
      fin_cases ha
      exact ⟨RV.pinf, rawCompute_ab_sample⟩)
    ⟨.FREQUENCY, by simp, .SAMPLE, by simp, RV.pinf, rawCompute_ab_sample, rfl⟩

end Chaos
